import Mathlib

/-!
Verification development for the PcAutoAgent repository.

The program drives a desktop through a perceive / model-call / parse /
execute loop.  This file embeds, directly from the Python sources,

* `utils/tool_utils.py`   — `parse_tool_calls` (three regular-expression
  conventions, argument coercion, de-duplication by matched text) and
  `execute_tool_calls` (ordered dispatch with per-call error capture);
* `utils/coordinate_utils.py` — `convert_proportion_to_actual`;
* `utils/adapter_utils.py`    — `apply_adjustment`;
* `vlm_agent.py`          — the `run_task` action loop, modelled as a
  fuel-bounded state machine that records an event trace (model calls,
  gate waits, screenshots, pause/complete observations).

Numeric values are modelled by exact rationals; Python binary floats
agree with the rational semantics on every value exercised here.
Regular-expression matching is embedded by hand: each of the concrete
patterns in the source is deterministic (no essential backtracking), so
its `re.findall` scan is rendered as a left-to-right fueled scanner.
-/

namespace PcAuto

/-- The double-quote character (ASCII 34). -/
def quoteChar : Char := Char.ofNat 34

/-- The newline character (ASCII 10). -/
def newlineChar : Char := Char.ofNat 10

/-- Python `\s` on the ASCII range: space, tab, newline, carriage
return, vertical tab, form feed.  (The source never feeds non-ASCII
whitespace to these patterns.) -/
def isPySpace (c : Char) : Bool :=
  c = ' ' || c = Char.ofNat 9 || c = newlineChar || c = Char.ofNat 13 ||
  c = Char.ofNat 11 || c = Char.ofNat 12

/-- `[a-zA-Z_]`, the first character of an identifier. -/
def isIdentStart (c : Char) : Bool :=
  ('a' ≤ c && c ≤ 'z') || ('A' ≤ c && c ≤ 'Z') || c = '_'

/-- `[a-zA-Z0-9_]`, a continuation character of an identifier
(also Python `\w` on the ASCII range). -/
def isIdentChar (c : Char) : Bool :=
  isIdentStart c || ('0' ≤ c && c ≤ '9')

/-- `[0-9]`, Python `\d` on the ASCII range. -/
def isDigitChar (c : Char) : Bool :=
  '0' ≤ c && c ≤ '9'

/-- The tool-call marker `<|tool_call|>` as a character list. -/
def markerL : List Char := "<|tool_call|>".data

/-- Strip an expected literal from the front of the input, returning the
remainder on success. -/
def stripPrefixList : List Char → List Char → Option (List Char)
  | [], t => some t
  | _ :: _, [] => none
  | p :: ps, c :: cs => if p = c then stripPrefixList ps cs else none

/-- One character of the input, which must equal `c`. -/
def expectChar (c : Char) : List Char → Option (List Char)
  | [] => none
  | x :: r => if x = c then some r else none

/-- Whether the marker `<|tool_call|>` occurs anywhere in the text. -/
def containsMarker : List Char → Bool
  | [] => false
  | t@(_ :: r) => markerL.isPrefixOf t || containsMarker r

/-- Substring test, Python `pat in t`. -/
def containsSub (pat : List Char) : List Char → Bool
  | [] => pat.isEmpty
  | t@(_ :: r) => pat.isPrefixOf t || containsSub pat r

/-! ### Pattern 1 (`tool_utils.py` line 60)

`r'<\|tool_call\|>([^<\|tool_call\|>]*?)<\|tool_call\|>'`.

The bracket expression is a *negated character class* over the letters
of the marker, so the lazily matched content may not contain any of
`<ǀtol_ca>` (set `{<, |, t, o, l, _, c, a, >}`).  The lazy star makes
the scan deterministic: at each step the end marker is tried first, and
otherwise one permitted character is consumed. -/

/-- The characters excluded by the class `[^<\|tool_call\|>]`. -/
def forbidden1 (c : Char) : Bool :=
  ['<', '|', 't', 'o', 'l', '_', 'c', 'a', '>'].contains c

/-- Lazy scan for the closing marker; `acc` holds the reversed content
consumed so far.  Returns the captured content and the remainder after
the closing marker. -/
def lazyScan1 : List Char → List Char → Option (List Char × List Char)
  | acc, [] =>
    match stripPrefixList markerL [] with
    | some rest => some (acc.reverse, rest)
    | none => none
  | acc, t@(c :: r) =>
    match stripPrefixList markerL t with
    | some rest => some (acc.reverse, rest)
    | none => if forbidden1 c then none else lazyScan1 (c :: acc) r

/-- Attempt pattern 1 at the current position: opening marker, lazy
content, closing marker. -/
def tryMatch1 (t : List Char) : Option (List Char × List Char) :=
  match stripPrefixList markerL t with
  | some rest => lazyScan1 [] rest
  | none => none

/-- `re.findall` scan for pattern 1.  The fuel starts at the text length
and strictly bounds the number of scan positions, so it never runs out
before the text does. -/
def findall1Aux : Nat → List Char → List (List Char)
  | 0, _ => []
  | _ + 1, [] => []
  | fuel + 1, t@(_ :: r) =>
    match tryMatch1 t with
    | some (cap, after) => cap :: findall1Aux fuel after
    | none => findall1Aux fuel r

/-- All pattern-1 captures of a text, in order. -/
def findall1 (t : List Char) : List (List Char) := findall1Aux t.length t

/-! ### Pattern 2 (`tool_utils.py` line 64)

`r'([a-zA-Z_][a-zA-Z0-9_]*\s*\([^)]*\))\s*<\|tool_call\|>'`.

Every sub-pattern is determinised by its follower (an identifier cannot
resume after whitespace, `[^)]*` stops exactly at the first `)`), so no
backtracking arises. -/

/-- Attempt pattern 2 at the current position.  The capture is
`name ++ ws ++ "(" ++ args ++ ")"`; the trailing whitespace and marker
are consumed but not captured. -/
def tryMatch2 : List Char → Option (List Char × List Char)
  | [] => none
  | c :: r =>
    if isIdentStart c then
      let idTail := r.takeWhile isIdentChar
      let r1 := r.dropWhile isIdentChar
      let ws1 := r1.takeWhile isPySpace
      let r2 := r1.dropWhile isPySpace
      match expectChar '(' r2 with
      | none => none
      | some r3 =>
        let args := r3.takeWhile (fun x => x ≠ ')')
        let r4 := r3.dropWhile (fun x => x ≠ ')')
        match expectChar ')' r4 with
        | none => none
        | some r5 =>
          match stripPrefixList markerL (r5.dropWhile isPySpace) with
          | none => none
          | some r7 =>
            some (c :: (idTail ++ ws1 ++ '(' :: (args ++ [')'])), r7)
    else none

/-- `re.findall` scan for pattern 2. -/
def findall2Aux : Nat → List Char → List (List Char)
  | 0, _ => []
  | _ + 1, [] => []
  | fuel + 1, t@(_ :: r) =>
    match tryMatch2 t with
    | some (cap, after) => cap :: findall2Aux fuel after
    | none => findall2Aux fuel r

/-- All pattern-2 captures of a text, in order. -/
def findall2 (t : List Char) : List (List Char) := findall2Aux t.length t

/-! ### Pattern 3 (`tool_utils.py` lines 69 and 73)

The bare form, restricted to a fixed alternation of nine tool names and
a lookahead `(?=\s*\n|$|\.)`.  The code first runs the pattern whose
group is the name alone, and when that is non-empty reruns the pattern
with the full span in group 1; both passes match the same spans, so the
embedding produces the full spans directly.  No two of the nine names
is a prefix of another, so at most one alternative can start a match at
a given position and the alternation needs no backtracking. -/

/-- The allow-listed names of the bare form, in alternation order. -/
def names3 : List (List Char) :=
  ["mouse_click".data, "type_text".data, "scroll_window".data,
   "close_window".data, "clear_input".data, "wait".data,
   "press_hotkey".data, "pause_task".data, "complete_task".data]

/-- Try the name alternation at the current position; returns the
matched name and the remainder. -/
def findName3 : List (List Char) → List Char → Option (List Char × List Char)
  | [], _ => none
  | nm :: more, t =>
    match stripPrefixList nm t with
    | some rest => some (nm, rest)
    | none => findName3 more t

/-- The lookahead `(?=\s*\n|$|\.)` applied to the remainder of the
text.  Without `re.MULTILINE`, `$` matches at the end of the string or
just before a final newline. -/
def lookahead3 (rest : List Char) : Bool :=
  (rest.takeWhile isPySpace).contains newlineChar ||
  rest = [] || rest = [newlineChar] ||
  (match rest with
   | c :: _ => c = '.'
   | [] => false)

/-- Attempt pattern 3 (full-span form) at the current position. -/
def tryMatch3 (t : List Char) : Option (List Char × List Char) :=
  match findName3 names3 t with
  | none => none
  | some p =>
    let nm := p.1
    let ws1 := p.2.takeWhile isPySpace
    let r2 := p.2.dropWhile isPySpace
    match expectChar '(' r2 with
    | none => none
    | some r3 =>
      let args := r3.takeWhile (fun x => x ≠ ')')
      let r4 := r3.dropWhile (fun x => x ≠ ')')
      match expectChar ')' r4 with
      | none => none
      | some r5 =>
        if lookahead3 r5 then
          some (nm ++ ws1 ++ '(' :: (args ++ [')']), r5)
        else none

/-- `re.findall` scan for pattern 3. -/
def findall3Aux : Nat → List Char → List (List Char)
  | 0, _ => []
  | _ + 1, [] => []
  | fuel + 1, t@(_ :: r) =>
    match tryMatch3 t with
    | some (cap, after) => cap :: findall3Aux fuel after
    | none => findall3Aux fuel r

/-- All pattern-3 captures of a text, in order. -/
def findall3 (t : List Char) : List (List Char) := findall3Aux t.length t

/-! ### Merging and de-duplication (`tool_utils.py` lines 77-85)

The three match lists are concatenated and filtered through a `seen`
set, keeping the first occurrence of each exact matched text. -/

/-- The seen-set loop of the source: emit each element not yet seen. -/
def dedupGo : List (List Char) → List (List Char) → List (List Char)
  | [], _ => []
  | x :: r, seen =>
    if x ∈ seen then dedupGo r seen else x :: dedupGo r (x :: seen)

/-- De-duplicate, keeping first occurrences, starting from an empty
seen set. -/
def dedupSeen (l : List (List Char)) : List (List Char) := dedupGo l []

/-- `all_matches` of the source: the de-duplicated concatenation of the
three pattern scans, in pattern order. -/
def mergedMatches (t : List Char) : List (List Char) :=
  dedupSeen (findall1 t ++ findall2 t ++ findall3 t)

/-! ### Per-match parsing (`tool_utils.py` lines 93-135)

Each merged span is re-matched against
`r'^\s*([a-zA-Z_][a-zA-Z0-9_]*)\s*\((.*?)\)\s*$'` with `re.match`; a
span that fails is skipped.  The lazy group `(.*?)` cannot cross a
newline (`.` without `re.DOTALL`), and `\)\s*$` forces the remainder
after the chosen `)` to be all whitespace. -/

/-- Lazy scan of `(.*?)\)\s*$`: at each `)` the tail is tested for
all-whitespace; a newline aborts; otherwise the character joins the
argument capture. -/
def lazyArgs : List Char → List Char → Option (List Char)
  | _, [] => none
  | acc, c :: rest =>
    if c = ')' then
      if rest.all isPySpace then some acc.reverse
      else lazyArgs (c :: acc) rest
    else if c = newlineChar then none
    else lazyArgs (c :: acc) rest

/-- `re.match` of the function pattern against a span: returns the
captured name and raw argument text. -/
def funcMatch (s : List Char) : Option (List Char × List Char) :=
  let t1 := s.dropWhile isPySpace
  match t1 with
  | [] => none
  | c :: _ =>
    if isIdentStart c then
      let nm := t1.takeWhile isIdentChar
      let t2 := (t1.dropWhile isIdentChar).dropWhile isPySpace
      match expectChar '(' t2 with
      | none => none
      | some t3 => (lazyArgs [] t3).map (fun args => (nm, args))
    else none

/-! ### Argument extraction (`tool_utils.py` lines 107-130)

`r'\s*([a-zA-Z_][a-zA-Z0-9_]*)\s*=\s*("[^"]*"|\d+\.\d+|\d+|\w+)\s*'`
scanned with `re.findall`; the value alternation is tried in order and
every branch is determinised by its follower. -/

/-- The value alternation `"[^"]*"|\d+\.\d+|\d+|\w+`.  Returns the raw
matched value text and the remainder. -/
def parseValue (t : List Char) : Option (List Char × List Char) :=
  match t with
  | c :: rest =>
    if c = quoteChar then
      let inner := rest.takeWhile (fun x => x ≠ quoteChar)
      match expectChar quoteChar (rest.dropWhile (fun x => x ≠ quoteChar)) with
      | some r2 => some (quoteChar :: (inner ++ [quoteChar]), r2)
      | none => none
    else
      let ds := t.takeWhile isDigitChar
      let r1 := t.dropWhile isDigitChar
      if ds.isEmpty then
        let ws := t.takeWhile isIdentChar
        if ws.isEmpty then none else some (ws, t.dropWhile isIdentChar)
      else
        match r1 with
        | '.' :: r2 =>
          let fs := r2.takeWhile isDigitChar
          if fs.isEmpty then some (ds, r1)
          else some (ds ++ '.' :: fs, r2.dropWhile isDigitChar)
        | _ => some (ds, r1)
  | [] => none

/-- Attempt the argument pattern at the current position: leading
whitespace, key, `=`, value, trailing whitespace.  Returns the raw
`(key, value)` capture pair and the remainder after the match. -/
def tryMatchArg (t : List Char) : Option ((List Char × List Char) × List Char) :=
  let t1 := t.dropWhile isPySpace
  match t1 with
  | [] => none
  | c :: _ =>
    if isIdentStart c then
      let an := t1.takeWhile isIdentChar
      let t2 := (t1.dropWhile isIdentChar).dropWhile isPySpace
      match expectChar '=' t2 with
      | none => none
      | some t3 =>
        match parseValue (t3.dropWhile isPySpace) with
        | some (v, r) => some ((an, v), r.dropWhile isPySpace)
        | none => none
    else none

/-- `re.findall` scan for the argument pattern. -/
def findArgsAux : Nat → List Char → List (List Char × List Char)
  | 0, _ => []
  | _ + 1, [] => []
  | fuel + 1, t@(_ :: r) =>
    match tryMatchArg t with
    | some (kv, rest) => kv :: findArgsAux fuel rest
    | none => findArgsAux fuel r

/-- All raw `(key, value)` captures of an argument string. -/
def findArgs (t : List Char) : List (List Char × List Char) :=
  findArgsAux t.length t

/-! ### Value coercion (`tool_utils.py` lines 113-126) -/

/-- A parsed argument value: stripped string, Python `int`, or Python
`float` (modelled exactly as a rational). -/
inductive ArgValue where
  | str : String → ArgValue
  | int : Int → ArgValue
  | float : ℚ → ArgValue
deriving DecidableEq

/-- Numeric value of an ASCII digit string. -/
def natOfDigits (l : List Char) : Nat :=
  l.foldl (fun n c => n * 10 + (c.toNat - '0'.toNat)) 0

/-- Exact value of a `\d+\.\d+` literal (the only shapes with a `.`
that the value alternation can produce; Python's `float()` rounds this
to a double, which agrees with the rational on every value used in the
claims). -/
def floatOfChars (v : List Char) : Option ℚ :=
  let ds := v.takeWhile isDigitChar
  match v.dropWhile isDigitChar with
  | '.' :: fs =>
    if ds.isEmpty || fs.isEmpty || !fs.all isDigitChar then none
    else some ((natOfDigits ds : ℚ) + (natOfDigits fs : ℚ) / (10 ^ fs.length))
  | _ => none

/-- The coercion chain of the source: quoted strings are stripped,
values containing `.` become floats, pure digit strings become ints,
and anything else stays a raw string. -/
def coerceValue (v : List Char) : ArgValue :=
  if v.head? = some quoteChar && v.getLast? = some quoteChar then
    ArgValue.str (String.mk ((v.drop 1).dropLast))
  else if v.contains '.' then
    match floatOfChars v with
    | some q => ArgValue.float q
    | none => ArgValue.str (String.mk v)
  else if !v.isEmpty && v.all isDigitChar then
    ArgValue.int (natOfDigits v)
  else
    ArgValue.str (String.mk v)

/-- Insert into a Python dict: overwrite in place if the key exists,
else append. -/
def upsert (k : String) (v : ArgValue) :
    List (String × ArgValue) → List (String × ArgValue)
  | [] => [(k, v)]
  | (k1, v1) :: r => if k1 = k then (k1, v) :: r else (k1, v1) :: upsert k v r

/-- Build the argument dict from the raw captures, in scan order. -/
def buildArgs (l : List (List Char × List Char)) : List (String × ArgValue) :=
  l.foldl (fun d kv => upsert (String.mk kv.1) (coerceValue kv.2) d) []

/-- A structured tool call: name plus ordered argument mapping. -/
structure ToolCall where
  name : String
  arguments : List (String × ArgValue)
deriving DecidableEq

/-- Python `str.strip` on a character list. -/
def stripWs (l : List Char) : List Char :=
  ((l.dropWhile isPySpace).reverse.dropWhile isPySpace).reverse

/-- Parse one merged span into a tool call; unparseable spans are
skipped by the caller. -/
def parseOneCall (s : List Char) : Option ToolCall :=
  match funcMatch s with
  | none => none
  | some (nm, argsChars) =>
    let args :=
      if (stripWs argsChars).isEmpty then []
      else buildArgs (findArgs argsChars)
    some { name := String.mk nm, arguments := args }

/-- `parse_tool_calls` of `tool_utils.py`: scan the three patterns,
de-duplicate by exact matched text keeping first occurrences, and parse
each remaining span. -/
def parse_tool_calls (text : String) : List ToolCall :=
  (mergedMatches text.data).filterMap parseOneCall

/-! ### Coordinate conversion (`utils/coordinate_utils.py`)

All arithmetic is modelled over exact rationals.  Python's
`round(x, 4)` becomes rounding to the nearest multiple of `1/10000`
(tie behaviour is irrelevant to every property below, since binary
floats are never exact ties at the fourth decimal). -/

/-- Rounding to four decimal places. -/
def round4 (q : ℚ) : ℚ := (round (q * 10000) : ℤ) / 10000

/-- The converter state; `__init__` sets both dimensions to `0` until
`set_original_resolution` is called. -/
structure CoordinateConverter where
  original_width : ℤ
  original_height : ℤ
deriving DecidableEq

/-- `convert_proportion_to_actual`: clamp the proportions to `[0, 1]`,
scale by the original resolution, clamp into the 5-pixel safety margin,
and round to four decimals. -/
def convert_proportion_to_actual (cc : CoordinateConverter) (xp yp : ℚ) :
    ℚ × ℚ :=
  let xp := max 0 (min 1 xp)
  let yp := max 0 (min 1 yp)
  let ax := xp * (cc.original_width : ℚ)
  let ay := yp * (cc.original_height : ℚ)
  let maxX : ℚ := (cc.original_width : ℚ) - 5
  let maxY : ℚ := (cc.original_height : ℚ) - 5
  let ax := max 5 (min maxX ax)
  let ay := max 5 (min maxY ay)
  (round4 ax, round4 ay)

/-! ### Adapter adjustment (`utils/adapter_utils.py`)

Adapters are JSON objects keyed by file stem; absent JSON keys are
modelled by `Option` fields with the source's defaults. -/

/-- The `adjustment` object of a rule; absent `x`/`y` default to `0`. -/
structure Adjustment where
  xOff : Option ℚ
  yOff : Option ℚ
deriving DecidableEq

/-- One adjustment rule; `type`, `target` and `adjustment` may all be
absent. -/
structure AdjRule where
  ruleType : Option String
  ruleTarget : Option String
  adjustment : Option Adjustment
deriving DecidableEq

/-- An adapter; the `rules` key may be absent (defaults to `[]`). -/
structure Adapter where
  rules : Option (List AdjRule)
deriving DecidableEq

/-- The rule-match test of the source:
`rule.get('type') == target_type or rule.get('target') == target_type`. -/
def ruleMatches (tt : Option String) (r : AdjRule) : Bool :=
  r.ruleType == tt || r.ruleTarget == tt

/-- The x-offset a rule applies (`adjustment.get('x', 0)`). -/
def ruleDx (r : AdjRule) : ℚ := ((r.adjustment.getD ⟨none, none⟩).xOff).getD 0

/-- The y-offset a rule applies (`adjustment.get('y', 0)`). -/
def ruleDy (r : AdjRule) : ℚ := ((r.adjustment.getD ⟨none, none⟩).yOff).getD 0

/-- The rule loop of `apply_adjustment`: the first matching rule adds
its offset and re-clamps to `[0, 1]`; otherwise the input passes
through. -/
def scanRules (x y : ℚ) (tt : Option String) : List AdjRule → ℚ × ℚ
  | [] => (x, y)
  | r :: rest =>
    if ruleMatches tt r then
      (max 0 (min 1 (x + ruleDx r)), max 0 (min 1 (y + ruleDy r)))
    else scanRules x y tt rest

/-- `apply_adjustment`.  The registry is the loaded `self.adapters`
dict; Python's `not adapter_id` guard is true for `None` and for the
empty string. -/
def apply_adjustment (adapters : List (String × Adapter)) (x y : ℚ)
    (adapter_id : Option String) (target_type : Option String) : ℚ × ℚ :=
  match adapter_id with
  | none => (x, y)
  | some id =>
    if id = "" then (x, y)
    else
      match adapters.find? (fun p => p.1 == id) with
      | none => (x, y)
      | some p => scanRules x y target_type (p.2.rules.getD [])

/-- Registry lookup under an optional id (`self.adapters.get(id)`). -/
def lookupReg (adapters : List (String × Adapter)) (adapter_id : Option String) :
    Option Adapter :=
  adapter_id.bind (fun id => (adapters.find? (fun p => p.1 == id)).map (fun p => p.2))

/-! ### The executor (`tool_utils.py` lines 139-159)

The tool handlers themselves perform OS input simulation; they are
abstracted as an environment `runTool` returning either a result string
or a raised exception message, exactly the two outcomes the `try`
block distinguishes.  The registry membership test and the three result
shapes are embedded literally. -/

/-- The names registered in `self.tools`. -/
def toolNames : List String :=
  ["mouse_click", "double_click", "right_click", "mouse_hover",
   "mouse_down", "mouse_up", "type_text", "scroll_window",
   "close_window", "press_windows_key", "press_enter", "delete_text",
   "mouse_drag", "wait", "open_terminal", "press_hotkey",
   "pause_task", "complete_task"]

/-- The handler environment: invoking a registered handler either
returns its result string or raises. -/
def ToolEnv : Type := String → List (String × ArgValue) → Except String String

/-- The result-accumulation loop of `execute_tool_calls`: one line per
call, in order. -/
def executeResults (runTool : ToolEnv) : List ToolCall → List String
  | [] => []
  | call :: rest =>
    let line :=
      if toolNames.contains call.name then
        match runTool call.name call.arguments with
        | Except.ok r => "工具 " ++ call.name ++ " 执行结果: " ++ r
        | Except.error e => "执行工具 " ++ call.name ++ " 时出错: " ++ e
      else "未知工具: " ++ call.name
    line :: executeResults runTool rest

/-- `execute_tool_calls`: the joined result text. -/
def execute_tool_calls (runTool : ToolEnv) (calls : List ToolCall) : String :=
  String.intercalate "\n" (executeResults runTool calls)

/-! ### The `mouse_click` coordinate pipeline (`tool_utils.py` 161-259)

Only the pure coordinate computation is embedded: adapter adjustment,
proportional conversion, the screen-bound clamp with the 5-pixel
safety margin, and the final `int(round(...))` at the click
(lines 173-185 and 236-237).  The pointer-motion refinement loop reads
the live mouse position and is I/O. -/

/-- Numeric reading of an argument value, as used for coordinates. -/
def pyFloatOfArg : ArgValue → Option ℚ
  | ArgValue.int n => some (n : ℚ)
  | ArgValue.float q => some q
  | ArgValue.str _ => none

/-- Dict lookup in an argument mapping. -/
def argFind (args : List (String × ArgValue)) (k : String) : Option ArgValue :=
  (args.find? (fun p => p.1 == k)).map (fun p => p.2)

/-- Dict lookup with default (`arguments.get(k, d)`). -/
def argGetD (args : List (String × ArgValue)) (k : String) (d : ArgValue) :
    ArgValue :=
  (argFind args k).getD d

/-- The click-coordinate computation of `mouse_click`: adjustment,
conversion, safety clamp against the live screen size, and the final
integer rounding. -/
def mouse_click_target (adapters : List (String × Adapter))
    (cc : CoordinateConverter) (screen_width screen_height : ℤ)
    (x y : ℚ) (adapter_id : Option String) : ℤ × ℤ :=
  let a := apply_adjustment adapters x y adapter_id (some "click")
  let p := convert_proportion_to_actual cc a.1 a.2
  let px := max 5 (min ((screen_width : ℚ) - 5) p.1)
  let py := max 5 (min ((screen_height : ℚ) - 5) p.2)
  (round px, round py)

/-- Keyword binding of a parsed call to `mouse_click(**args)`: `x` and
`y` are required and read numerically, `button` defaults to `"left"`,
`clicks` to `1`, `adapter_id` to `None`.  Returns the click pixel and
the button/clicks values handed to `pyautogui.click`. -/
def mouse_click_invoke (adapters : List (String × Adapter))
    (cc : CoordinateConverter) (screen_width screen_height : ℤ)
    (args : List (String × ArgValue)) :
    Option ((ℤ × ℤ) × ArgValue × ArgValue) :=
  match (argFind args "x").bind pyFloatOfArg,
        (argFind args "y").bind pyFloatOfArg with
  | some x, some y =>
    let button := argGetD args "button" (ArgValue.str "left")
    let clicks := argGetD args "clicks" (ArgValue.int 1)
    let adapter_id :=
      match argFind args "adapter_id" with
      | some (ArgValue.str s) => some s
      | _ => none
    some (mouse_click_target adapters cc screen_width screen_height
            x y adapter_id, button, clicks)
  | _, _ => none

/-! ### The action loop (`vlm_agent.py`, `run_task`)

The loop is embedded as a fuel-bounded recursion over a stream of model
responses; `while step < max_steps` with `step += 1` at the top gives
exactly `max_steps` possible iterations, so the fuel is `max_steps`.
Each iteration records an event trace:

* `screenshot`   — a `capture_screenshot` call;
* `modelCall`    — a `chat.completions.create` call (the only one is at
  line 503, once per iteration);
* `execBatch`    — the `execute_tool_calls` invocation at line 564 with
  its per-call result lines;
* `observePause`/`observeComplete` — the controller noticing a
  `pause_task`/`complete_task` call in the scan at lines 569-623;
* `observeIntervention` — the keyword detector firing at line 644;
* `gateWait`/`gateClear` — `pause_event.wait()` and
  `pause_event.clear()`.

Side channels without algorithmic content (GUI callbacks, voice,
sleeps, logging) are omitted; screenshot capture is modelled as always
succeeding, and model-call transport errors are out of scope (the
claims quantify over the response stream). -/

/-- One observable event of the loop. -/
inductive Event where
  | screenshot
  | modelCall
  | execBatch : List String → Event
  | observePause : String → Event
  | observeComplete : String → Event
  | observeIntervention : String → Event
  | gateWait
  | gateClear
deriving DecidableEq

/-- The mutable agent fields that `run_task` reads and writes. -/
structure AgentState where
  messages : List (String × String)
  manual_intervention_detected : Bool
  pause_reason : String

/-- Append one role-tagged message to the transcript. -/
def pushMsg (st : AgentState) (role content : String) : AgentState :=
  { st with messages := st.messages ++ [(role, content)] }

/-- The events of one gate passage: with an installed pause event the
loop blocks on `wait()` and then `clear()`s it; with `pause_event`
`None` the guard is skipped entirely. -/
def gateEvs (hasPE : Bool) : List Event :=
  if hasPE then [Event.gateWait, Event.gateClear] else []

/-- Python `str(value)` on an argument value, as interpolated into the
pause/complete messages (float rendering is canonical-rational here;
every claim exercises string values only). -/
def renderArg : ArgValue → String
  | ArgValue.str s => s
  | ArgValue.int n => toString n
  | ArgValue.float q => toString q

/-- Outcome of the post-execution scan over a batch. -/
inductive ScanOut where
  | ret : String → ScanOut
  | cont : ScanOut
deriving DecidableEq

/-- Result of scanning a batch: outcome, events, updated state. -/
structure ScanRes where
  out : ScanOut
  evs : List Event
  st : AgentState

/-- The `for call in tool_calls` scan at lines 569-623: a `pause_task`
blocks on the gate (when installed), recaptures the screen, appends a
resume message and continues with the *next* call (the `continue` at
line 608 binds to the `for` loop); the first `complete_task` returns
`"任务已完成: " ++ message` immediately; other calls are skipped. -/
def scanBatch (hasPE : Bool) (st : AgentState) : List ToolCall → ScanRes
  | [] => ⟨ScanOut.cont, [], st⟩
  | call :: rest =>
    if call.name = "pause_task" then
      let reason := renderArg (argGetD call.arguments "reason" (ArgValue.str "用户手动操作"))
      let st1 := pushMsg st "user" ("用户已完成" ++ reason ++ "操作，请继续执行任务")
      let r := scanBatch hasPE st1 rest
      ⟨r.out,
       Event.observePause reason :: gateEvs hasPE ++ Event.screenshot :: r.evs,
       r.st⟩
    else if call.name = "complete_task" then
      let msg := renderArg (argGetD call.arguments "message" (ArgValue.str "任务已完成"))
      ⟨ScanOut.ret ("任务已完成: " ++ msg), [Event.observeComplete msg], st⟩
    else scanBatch hasPE st rest

/-- Result of the execute-then-scan phase of one iteration. -/
structure StepRes where
  out : ScanOut
  evs : List Event
  st : AgentState

/-- Lines 564-623: the whole batch is executed first (line 564), and
only then is it scanned for `pause_task`/`complete_task`. -/
def stepExec (cfg : ToolEnv) (hasPE : Bool) (st : AgentState)
    (calls : List ToolCall) : StepRes :=
  let r := scanBatch hasPE st calls
  ⟨r.out, Event.execBatch (executeResults cfg calls) :: r.evs, r.st⟩

/-- The keyword list of `detect_manual_intervention_required`,
verbatim (duplicates included). -/
def interventionPatterns : List String :=
  ["登录", "login", "sign in", "登陆", "登录验证", "双因子验证", "2fa",
   "账号", "密码", "用户名", "user", "password", "account",
   "购买", "支付", "pay", "purchase", "付款", "结算", "确认支付", "支付方式",
   "订单", "下单", "立即购买", "立即支付", "购物车", "结算",
   "验证码", "captcha", "verification code", "验证", "安全验证", "security check",
   "拖动验证", "滑块验证", "短信验证", "邮箱验证", "人机验证",
   "授权", "permission", "权限", "同意", "accept", "确认授权",
   "实名认证", "身份验证", "银行卡", "身份证", "实名",
   "邮箱验证", "手机验证", "绑定手机", "绑定邮箱"]

/-- Python `str.lower` on the ASCII range (CJK is unaffected). -/
def pyLower (s : String) : String := String.mk (s.data.map Char.toLower)

/-- `detect_manual_intervention_required`: first matching pattern, if
any. -/
def detect_manual_intervention_required (resp : String) : Option String :=
  interventionPatterns.find? (fun p => containsSub p.data (pyLower resp).data)

/-- The cooperative-language keywords of the fallback check at
line 669. -/
def needKeywords : List String :=
  ["需要用户", "请用户", "用户帮忙", "用户操作", "请输入", "请选择", "等待", "请稍候"]

/-- The `need_user_input` fallback scan. -/
def needUserInputCheck (resp : String) : Bool :=
  needKeywords.any (fun k => containsSub k.data (pyLower resp).data)

/-- Loop configuration: the handler environment and whether an external
pause event object is installed on the agent. -/
structure LoopCfg where
  runTool : ToolEnv
  hasPauseEvent : Bool

/-- What `run_task` returns together with its event trace. -/
structure RunRes where
  answer : String
  trace : List Event

/-- The fall-through return at lines 737-741: the most recent assistant
message, or the fixed fallback text. -/
def finalAnswer (st : AgentState) : String :=
  match st.messages.reverse.find? (fun m => m.1 == "assistant") with
  | some m => m.2
  | none => "任务已完成，但没有可用的回复内容"

/-- One-step-at-a-time embedding of the `while` loop of `run_task`
(lines 392-733).  `fuel` is the remaining step budget, `idx` indexes
the response stream. -/
def run_taskAux (cfg : LoopCfg) (responses : List String) :
    Nat → Nat → AgentState → RunRes
  | 0, _, st => ⟨finalAnswer st, []⟩
  | fuel + 1, idx, st0 =>
    let st1 := pushMsg st0 "user" "[screenshot]"
    let mi := st1.manual_intervention_detected
    let evPause :=
      if mi then gateEvs cfg.hasPauseEvent ++ [Event.screenshot] else []
    let st2 :=
      if mi then
        pushMsg { st1 with manual_intervention_detected := false, pause_reason := "" }
          "user" "用户已完成操作，请继续执行任务"
      else st1
    let resp := responses.getD idx ""
    let st3 := pushMsg st2 "assistant" resp
    let calls := parse_tool_calls resp
    let headEvs := Event.screenshot :: evPause ++ [Event.modelCall]
    if calls.isEmpty then
      match detect_manual_intervention_required resp with
      | some kw =>
        let st4 := { st3 with manual_intervention_detected := true, pause_reason := kw }
        let r := run_taskAux cfg responses fuel (idx + 1) st4
        ⟨r.answer,
         headEvs ++ Event.observeIntervention kw :: gateEvs cfg.hasPauseEvent ++ r.trace⟩
      | none =>
        if needUserInputCheck resp then
          let st4 := pushMsg st3 "user" "用户已完成操作，请继续执行任务"
          let r := run_taskAux cfg responses fuel (idx + 1) st4
          ⟨r.answer,
           headEvs ++ gateEvs cfg.hasPauseEvent ++ Event.screenshot :: r.trace⟩
        else
          let st4 := pushMsg st3 "user" "任务检测为完成状态，等待用户确认或继续指令"
          ⟨finalAnswer st4, headEvs⟩
    else
      let sr := stepExec cfg.runTool cfg.hasPauseEvent st3 calls
      match sr.out with
      | ScanOut.ret msg => ⟨msg, headEvs ++ sr.evs⟩
      | ScanOut.cont =>
        let st4 := pushMsg sr.st "user"
          ("工具执行结果:" ++ String.mk [newlineChar] ++ execute_tool_calls cfg.runTool calls)
        let r := run_taskAux cfg responses fuel (idx + 1) st4
        ⟨r.answer, headEvs ++ sr.evs ++ r.trace⟩

/-- `run_task`: system prompt, then at most `max_steps` iterations. -/
def run_task (cfg : LoopCfg) (sysPrompt : String) (responses : List String)
    (max_steps : Nat) : RunRes :=
  run_taskAux cfg responses max_steps 0 ⟨[("system", sysPrompt)], false, ""⟩

/-! ### Trace predicates for the temporal claims -/

/-- Gate discipline: every observed `pause_task` is immediately
followed by a blocking `wait()` and its `clear()`, and every `wait()`
is immediately followed by its `clear()` (the signal is consumed, so
the gate is reusable).  In particular no `modelCall` can occur between
a pause observation and the release of the gate. -/
def gateOK : List Event → Bool
  | [] => true
  | Event.observePause _ :: rest =>
    match rest with
    | Event.gateWait :: Event.gateClear :: r2 => gateOK r2
    | _ => false
  | Event.gateWait :: rest =>
    match rest with
    | Event.gateClear :: r2 => gateOK r2
    | _ => false
  | _ :: rest => gateOK rest

/-- Every observed `pause_task` is immediately followed by the next
screenshot (no gate passage at all). -/
def pauseThenShot : List Event → Bool
  | [] => true
  | Event.observePause _ :: rest =>
    match rest with
    | Event.screenshot :: r2 => pauseThenShot r2
    | _ => false
  | _ :: rest => pauseThenShot rest

/-- The trace contains no blocking `wait()` at all. -/
def noGateWait : List Event → Bool
  | [] => true
  | Event.gateWait :: _ => false
  | _ :: rest => noGateWait rest

/-! ## Helper lemmas -/

/-- Rounding to four decimals preserves integer bounds. -/
theorem round4_mem {q : ℚ} {lo hi : ℤ} (h1 : (lo : ℚ) ≤ q) (h2 : q ≤ (hi : ℚ)) :
    (lo : ℚ) ≤ round4 q ∧ round4 q ≤ (hi : ℚ) := by
  have hlo : (lo * 10000 : ℤ) ≤ round (q * 10000) := by
    have hc : ((lo * 10000 : ℤ) : ℚ) ≤ q * 10000 := by
      push_cast
      nlinarith
    calc (lo * 10000 : ℤ) = round (((lo * 10000 : ℤ) : ℚ)) := (round_intCast _).symm
    _ ≤ round (q * 10000) := by
        rw [round_eq, round_eq]
        exact Int.floor_le_floor (by linarith)
  have hhi : round (q * 10000) ≤ (hi * 10000 : ℤ) := by
    have hc : q * 10000 ≤ ((hi * 10000 : ℤ) : ℚ) := by
      push_cast
      nlinarith
    calc round (q * 10000) ≤ round (((hi * 10000 : ℤ) : ℚ)) := by
          rw [round_eq, round_eq]
          exact Int.floor_le_floor (by linarith)
    _ = (hi * 10000 : ℤ) := round_intCast _
  constructor
  · rw [round4, le_div_iff₀ (by norm_num : (0 : ℚ) < 10000)]
    exact_mod_cast hlo
  · rw [round4, div_le_iff₀ (by norm_num : (0 : ℚ) < 10000)]
    exact_mod_cast hhi

/-- The rule loop of `apply_adjustment` returns the first matching
rule's clamped offset, in `List.find?` form. -/
theorem scanRules_eq_find (x y : ℚ) (tt : Option String) (rules : List AdjRule) :
    scanRules x y tt rules =
      (match rules.find? (ruleMatches tt) with
       | none => (x, y)
       | some r => (max 0 (min 1 (x + ruleDx r)), max 0 (min 1 (y + ruleDy r)))) := by
  induction rules with
  | nil => rfl
  | cons r rest ih =>
    by_cases hm : ruleMatches tt r
    · simp [scanRules, hm, List.find?_cons_of_pos _ hm]
    · rw [scanRules, if_neg (by simpa using hm), List.find?_cons_of_neg _ (by simpa using hm)]
      exact ih

/-- `executeResults` distributes over concatenation: calls are
processed strictly in order and independently. -/
theorem executeResults_append (rt : ToolEnv) (a b : List ToolCall) :
    executeResults rt (a ++ b) = executeResults rt a ++ executeResults rt b := by
  induction a with
  | nil => rfl
  | cons c r ih => simp [executeResults, ih]

/-- Every call contributes exactly one result line. -/
theorem executeResults_length (rt : ToolEnv) (l : List ToolCall) :
    (executeResults rt l).length = l.length := by
  induction l with
  | nil => rfl
  | cons c r ih => simp [executeResults, ih]

/-! ## Claim C4 -/

section
attribute [local semireducible] Rat.mul Rat.add Rat.inv Rat.sub

/-- C4, counterexample.  The claim asserts that for every proportional
pair in `[0,1]²` and the current screen geometry the converted point
lies in `[margin, dimension − margin]` on both axes.  At the
converter's initial geometry (`__init__` sets both dimensions to `0`,
before any `set_original_resolution` call) the required interval
`[5, 0 − 5]` is empty, yet `convert_proportion_to_actual` still
returns a value — `(5, 5)` — so the claimed containment fails. -/
theorem c4_counterexample :
    ¬ (5 ≤ (convert_proportion_to_actual ⟨0, 0⟩ (1/2) (1/2)).1 ∧
       (convert_proportion_to_actual ⟨0, 0⟩ (1/2) (1/2)).1 ≤ ((0 : ℤ) : ℚ) - 5) := by
  decide

end

/-- C4, amended: whenever both configured screen dimensions are at
least `10` (twice the 5-pixel safety margin — true of every real
screen), `convert_proportion_to_actual` maps every proportional pair
in `[0,1]²` to a point within `[5, dimension − 5]` on both axes. -/
theorem c4_amended_output_in_margins (w h : ℤ) (x y : ℚ)
    (hw : 10 ≤ w) (hh : 10 ≤ h)
    (_hx0 : 0 ≤ x) (_hx1 : x ≤ 1) (_hy0 : 0 ≤ y) (_hy1 : y ≤ 1) :
    (5 ≤ (convert_proportion_to_actual ⟨w, h⟩ x y).1 ∧
       (convert_proportion_to_actual ⟨w, h⟩ x y).1 ≤ (w : ℚ) - 5) ∧
    (5 ≤ (convert_proportion_to_actual ⟨w, h⟩ x y).2 ∧
       (convert_proportion_to_actual ⟨w, h⟩ x y).2 ≤ (h : ℚ) - 5) := by
  have bound : ∀ (d : ℤ) (p : ℚ), 10 ≤ d →
      (5 : ℚ) ≤ round4 (max 5 (min ((d : ℚ) - 5) p)) ∧
      round4 (max 5 (min ((d : ℚ) - 5) p)) ≤ (d : ℚ) - 5 := by
    intro d p hd
    have hdq : (10 : ℚ) ≤ (d : ℚ) := by exact_mod_cast hd
    have h5 : (5 : ℚ) ≤ (d : ℚ) - 5 := by linarith
    have hlo : (((5 : ℤ)) : ℚ) ≤ max 5 (min ((d : ℚ) - 5) p) := by
      simp only [Int.cast_ofNat]
      exact_mod_cast le_max_left (5 : ℚ) (min ((d : ℚ) - 5) p)
    have hhi : max 5 (min ((d : ℚ) - 5) p) ≤ (((d - 5 : ℤ)) : ℚ) := by
      push_cast
      exact max_le h5 (min_le_left _ _)
    have hmem := round4_mem hlo hhi
    refine ⟨by simpa using hmem.1, ?_⟩
    have := hmem.2
    push_cast at this
    linarith
  have hx := bound w (max 0 (min 1 x) * (w : ℚ)) hw
  have hy := bound h (max 0 (min 1 y) * (h : ℚ)) hh
  simp only [convert_proportion_to_actual]
  exact ⟨hx, hy⟩

/-- C4, witness: the amended theorem evaluated at a 1920×1080 screen
and the centre point. -/
theorem c4_witness :
    (5 ≤ (convert_proportion_to_actual ⟨1920, 1080⟩ (1/2) (1/2)).1 ∧
       (convert_proportion_to_actual ⟨1920, 1080⟩ (1/2) (1/2)).1 ≤ ((1920 : ℤ) : ℚ) - 5) ∧
    (5 ≤ (convert_proportion_to_actual ⟨1920, 1080⟩ (1/2) (1/2)).2 ∧
       (convert_proportion_to_actual ⟨1920, 1080⟩ (1/2) (1/2)).2 ≤ ((1080 : ℤ) : ℚ) - 5) :=
  c4_amended_output_in_margins 1920 1080 (1/2) (1/2)
    (by norm_num) (by norm_num) (by norm_num) (by norm_num) (by norm_num) (by norm_num)

/-! ## Claim C9 -/

/-- C9: `apply_adjustment` returns the input unchanged when no adapter
is registered under the id, and otherwise applies the first rule whose
`type` or `target` equals the target type, adding its offset and
re-clamping to `[0,1]` (input unchanged when no rule matches — the
`List.find? = none` branch).  The `id ≠ ""` premise reflects that the
loader keys adapters by non-empty file stems, while Python's
`not adapter_id` guard also short-circuits the empty string. -/
theorem c9_adapter_adjustment (adapters : List (String × Adapter)) (x y : ℚ)
    (aid tt : Option String) :
    (lookupReg adapters aid = none → apply_adjustment adapters x y aid tt = (x, y)) ∧
    (∀ A, aid ≠ some "" → lookupReg adapters aid = some A →
      apply_adjustment adapters x y aid tt =
        (match (A.rules.getD []).find? (ruleMatches tt) with
         | none => (x, y)
         | some r => (max 0 (min 1 (x + ruleDx r)), max 0 (min 1 (y + ruleDy r))))) := by
  constructor
  · intro hnone
    match aid with
    | none => rfl
    | some id =>
      have hfind : adapters.find? (fun p => p.1 == id) = none := by
        simpa [lookupReg, Option.map_eq_none'] using hnone
      by_cases hid : id = ""
      · simp [apply_adjustment, hid]
      · simp [apply_adjustment, hid, hfind]
  · intro A hne hsome
    match aid with
    | none => simp [lookupReg] at hsome
    | some id =>
      have hid : id ≠ "" := by
        intro h
        exact hne (by rw [h])
      obtain ⟨p, hp, hA⟩ : ∃ p, adapters.find? (fun q => q.1 == id) = some p ∧ p.2 = A := by
        simpa [lookupReg, Option.map_eq_some'] using hsome
      simp [apply_adjustment, hid, hp, hA, scanRules_eq_find]

/-- A concrete adapter used by the C9 witness: one rule on target type
`click` with offset `(1/5, 1/10)`. -/
def adapterW : Adapter :=
  ⟨some [⟨some "click", none, some ⟨some (1/5), some (1/10)⟩⟩]⟩

/-- C9, witness: an unregistered id passes coordinates through, and a
registered adapter applies its first matching rule with clamping
(`9/10 + 1/5` clamps to `1`). -/
theorem c9_witness :
    apply_adjustment [] (1/3) (1/4) (some "nope") (some "click") = (1/3, 1/4) ∧
    apply_adjustment [("notepad", adapterW)] (9/10) (1/2) (some "notepad") (some "click")
      = (1, 3/5) := by
  constructor
  · exact (c9_adapter_adjustment [] (1/3) (1/4) (some "nope") (some "click")).1 rfl
  · have h := (c9_adapter_adjustment [("notepad", adapterW)] (9/10) (1/2)
      (some "notepad") (some "click")).2 adapterW (by decide) rfl
    rw [h]
    norm_num [adapterW, ruleMatches, ruleDx, ruleDy]

/-! ## Claim C8 -/

/-- C8: `execute_tool_calls` processes calls strictly in parse order
and independently — the result list distributes over concatenation and
has one line per call, so a failing call cannot abort the remainder; a
call whose handler raises yields a descriptive error line, and a name
outside the registry yields the explicit unknown-tool line. -/
theorem c8_executor_per_call (rt : ToolEnv) (pre post : List ToolCall) (c : ToolCall) :
    executeResults rt (pre ++ c :: post) =
      executeResults rt pre ++ executeResults rt [c] ++ executeResults rt post ∧
    (executeResults rt (pre ++ c :: post)).length = pre.length + 1 + post.length ∧
    (toolNames.contains c.name = false →
      executeResults rt [c] = ["未知工具: " ++ c.name]) ∧
    (∀ e, toolNames.contains c.name = true → rt c.name c.arguments = Except.error e →
      executeResults rt [c] = ["执行工具 " ++ c.name ++ " 时出错: " ++ e]) := by
  refine ⟨?_, ?_, ?_, ?_⟩
  · rw [show (c :: post) = [c] ++ post from rfl, executeResults_append,
      executeResults_append, List.append_assoc]
  · rw [executeResults_length]
    simp [Nat.add_comm, Nat.add_assoc, Nat.add_left_comm]
  · intro hmem
    unfold executeResults
    rw [hmem]
    rfl
  · intro e hmem herr
    unfold executeResults
    rw [hmem, herr]
    rfl

/-- Handler environment for the C8 witness: `wait` raises, everything
else succeeds. -/
def rtW : ToolEnv := fun n _ => if n = "wait" then Except.error "boom" else Except.ok "完成"

/-- C8, witness: a successful call, a raising call and an unknown call
in one batch — three lines in order, the error and the unknown result
leaving the neighbours untouched. -/
theorem c8_witness :
    executeResults rtW [⟨"mouse_click", []⟩, ⟨"wait", []⟩, ⟨"frobnicate", []⟩] =
      ["工具 mouse_click 执行结果: 完成", "执行工具 wait 时出错: boom", "未知工具: frobnicate"] ∧
    executeResults rtW [⟨"frobnicate", []⟩] = ["未知工具: frobnicate"] := by
  constructor
  · have h := c8_executor_per_call rtW [⟨"mouse_click", []⟩] [⟨"frobnicate", []⟩] ⟨"wait", []⟩
    rw [show ([⟨"mouse_click", []⟩, ⟨"wait", []⟩, ⟨"frobnicate", []⟩] : List ToolCall) =
        [⟨"mouse_click", []⟩] ++ ⟨"wait", []⟩ :: [⟨"frobnicate", []⟩] from rfl, h.1,
      h.2.2.2 "boom" (by decide) rfl]
    rfl
  · exact (c8_executor_per_call rtW [] [] ⟨"frobnicate", []⟩).2.2.1 (by decide)

/-! ## Claim C7 -/

section
attribute [local semireducible] Rat.mul Rat.add Rat.inv Rat.sub

set_option maxRecDepth 4000 in
/-- C7: on the exact input `mouse_click(x=0.5, y=0.5)<|tool_call|>`
the parser yields the single call with `x` and `y` coerced to the
float `1/2`; at original resolution 1920×1080 the conversion gives
pixel `(960, 540)`; and the executor's `mouse_click` binding computes
click pixel `(960, 540)` with the defaults `button="left"`,
`clicks=1`. -/
theorem c7_click_scenario :
    parse_tool_calls "mouse_click(x=0.5, y=0.5)<|tool_call|>" =
      [⟨"mouse_click", [("x", ArgValue.float (1/2)), ("y", ArgValue.float (1/2))]⟩] ∧
    convert_proportion_to_actual ⟨1920, 1080⟩ (1/2) (1/2) = (960, 540) ∧
    mouse_click_invoke [] ⟨1920, 1080⟩ 1920 1080
        [("x", ArgValue.float (1/2)), ("y", ArgValue.float (1/2))] =
      some ((960, 540), ArgValue.str "left", ArgValue.int 1) := by
  refine ⟨by decide, by decide, by decide⟩

end

/-! ## Claim C5 -/

/-- Membership in the seen-set loop: an element is emitted iff it
occurs in the input and was not already seen. -/
theorem mem_dedupGo {a : List Char} :
    ∀ (l seen : List (List Char)), a ∈ dedupGo l seen ↔ a ∈ l ∧ a ∉ seen := by
  intro l
  induction l with
  | nil => intro seen; simp [dedupGo]
  | cons x r ih =>
    intro seen
    by_cases hx : x ∈ seen
    · rw [dedupGo, if_pos hx, ih]
      constructor
      · rintro ⟨hr, hs⟩
        exact ⟨List.mem_cons_of_mem _ hr, hs⟩
      · rintro ⟨hc, hs⟩
        rcases List.mem_cons.1 hc with rfl | hr
        · exact absurd hx hs
        · exact ⟨hr, hs⟩
    · rw [dedupGo, if_neg hx]
      constructor
      · intro hmem
        rcases List.mem_cons.1 hmem with rfl | hrec
        · exact ⟨List.mem_cons_self _ _, hx⟩
        · have := (ih (x :: seen)).1 hrec
          refine ⟨List.mem_cons_of_mem _ this.1, fun hs => this.2 (List.mem_cons_of_mem _ hs)⟩
      · rintro ⟨hc, hs⟩
        rcases List.mem_cons.1 hc with rfl | hr
        · exact List.mem_cons_self _ _
        · by_cases hax : a = x
          · exact hax ▸ List.mem_cons_self _ _
          · exact List.mem_cons_of_mem _
              ((ih (x :: seen)).2 ⟨hr, by simp [hax, hs]⟩)

/-- The seen-set loop never emits an element twice. -/
theorem nodup_dedupGo : ∀ (l seen : List (List Char)), (dedupGo l seen).Nodup := by
  intro l
  induction l with
  | nil => intro seen; simp [dedupGo]
  | cons x r ih =>
    intro seen
    by_cases hx : x ∈ seen
    · rw [dedupGo, if_pos hx]
      exact ih seen
    · rw [dedupGo, if_neg hx]
      refine List.nodup_cons.2 ⟨fun hmem => ?_, ih (x :: seen)⟩
      exact ((mem_dedupGo r (x :: seen)).1 hmem).2 (List.mem_cons_self _ _)

/-- In a duplicate-free list every member is counted exactly once. -/
theorem count_eq_one_of_nodup_mem {s : List Char} :
    ∀ (l : List (List Char)), l.Nodup → s ∈ l → l.count s = 1 := by
  intro l
  induction l with
  | nil => intro _ h; cases h
  | cons x r ih =>
    intro hnd hmem
    rcases List.mem_cons.1 hmem with rfl | hr
    · have hnot : s ∉ r := (List.nodup_cons.1 hnd).1
      simp [List.count_cons, List.count_eq_zero.2 hnot]
    · have hne : x ≠ s := by
        rintro rfl
        exact (List.nodup_cons.1 hnd).1 hr
      have hr1 := ih (List.nodup_cons.1 hnd).2 hr
      simp [List.count_cons, hr1, hne]

/-- C5: a raw span matched by both the delimited pattern (pattern 1)
and the marker-suffixed pattern (pattern 2) occurs exactly once in the
de-duplicated match list that `parse_tool_calls` goes on to parse —
the seen-set keeps only the first occurrence of the exact matched
text. -/
theorem c5_dedup_single (text : String) (s : List Char)
    (h1 : s ∈ findall1 text.data) (h2 : s ∈ findall2 text.data) :
    (mergedMatches text.data).count s = 1 := by
  have hmem : s ∈ mergedMatches text.data := by
    rw [mergedMatches, dedupSeen, mem_dedupGo]
    refine ⟨?_, by simp⟩
    simp only [List.mem_append]
    exact Or.inl (Or.inl h1)
  have h2u := h2
  exact count_eq_one_of_nodup_mem _ (nodup_dedupGo _ _) hmem

/-- C5, witness: in `<|tool_call|>fn(x=1)<|tool_call|>` the span
`fn(x=1)` is captured by both pattern 1 (as the delimited content) and
pattern 2 (as the call before the closing marker), and survives as a
single entry. -/
theorem c5_witness :
    (mergedMatches "<|tool_call|>fn(x=1)<|tool_call|>".data).count "fn(x=1)".data = 1 :=
  c5_dedup_single "<|tool_call|>fn(x=1)<|tool_call|>" "fn(x=1)".data
    (by decide) (by decide)

/-! ## Claim C2 -/

/-- Whether an event is a model call. -/
def isModelCall : Event → Bool
  | Event.modelCall => true
  | _ => false

/-- A gate passage contains no model call. -/
theorem countP_gate_zero (b : Bool) : (gateEvs b).countP isModelCall = 0 := by
  cases b <;> rfl

/-- Pushing a message leaves the intervention flag unchanged. -/
theorem pushMsg_flag (st : AgentState) (r c : String) :
    (pushMsg st r c).manual_intervention_detected = st.manual_intervention_detected := rfl

/-- The batch scan issues no model call. -/
theorem scanBatch_no_model (hasPE : Bool) :
    ∀ (calls : List ToolCall) (st : AgentState),
      (scanBatch hasPE st calls).evs.countP isModelCall = 0 := by
  intro calls
  induction calls with
  | nil => intro st; rfl
  | cons c rest ih =>
    intro st
    by_cases hp : c.name = "pause_task"
    · simp only [scanBatch, if_pos hp]
      simp [List.countP_cons, List.countP_append, countP_gate_zero, ih, isModelCall]
    · by_cases hc : c.name = "complete_task"
      · simp only [scanBatch, if_neg hp, if_pos hc]
        simp [isModelCall]
      · simp only [scanBatch, if_neg hp, if_neg hc]
        exact ih st

/-- One iteration issues exactly one model call before branching, so
`fuel` iterations issue at most `fuel` model calls. -/
theorem run_taskAux_model_bound (cfg : LoopCfg) (responses : List String) :
    ∀ (fuel idx : Nat) (st : AgentState),
      (run_taskAux cfg responses fuel idx st).trace.countP isModelCall ≤ fuel := by
  intro fuel
  induction fuel with
  | zero =>
    intro idx st
    simp [run_taskAux]
  | succ fuel ih =>
    intro idx st
    rw [run_taskAux]
    cases hmi : st.manual_intervention_detected with
    | true =>
      simp only [pushMsg_flag, hmi, if_pos, reduceIte]
      split
      · split
        · simp [List.countP_cons, List.countP_append, countP_gate_zero, isModelCall]
          exact ih _ _
        · split
          · simp [List.countP_cons, List.countP_append, countP_gate_zero, isModelCall]
            exact ih _ _
          · simp [List.countP_cons, List.countP_append, countP_gate_zero, isModelCall]
      · split
        · simp [List.countP_cons, List.countP_append, countP_gate_zero,
            scanBatch_no_model, stepExec, isModelCall]
        · simp [List.countP_cons, List.countP_append, countP_gate_zero,
            scanBatch_no_model, stepExec, isModelCall]
          exact ih _ _
    | false =>
      simp only [pushMsg_flag, hmi, reduceIte]
      split
      · split
        · simp [List.countP_cons, List.countP_append, countP_gate_zero, isModelCall]
          exact ih _ _
        · split
          · simp [List.countP_cons, List.countP_append, countP_gate_zero, isModelCall]
            exact ih _ _
          · simp [List.countP_cons, List.countP_append, countP_gate_zero, isModelCall]
      · split
        · simp [List.countP_cons, List.countP_append, countP_gate_zero,
            scanBatch_no_model, stepExec, isModelCall]
        · simp [List.countP_cons, List.countP_append, countP_gate_zero,
            scanBatch_no_model, stepExec, isModelCall]
          exact ih _ _

/-- C2: for every configured maximum step count, every handler
environment, every pause-event configuration and every sequence of
model responses, `run_task` issues at most `max_steps` model calls
before terminating (the embedding is total, so the loop always
terminates; an early `complete_task` return only lowers the count). -/
theorem c2_step_bound (cfg : LoopCfg) (sysPrompt : String)
    (responses : List String) (max_steps : Nat) :
    (run_task cfg sysPrompt responses max_steps).trace.countP isModelCall ≤ max_steps :=
  run_taskAux_model_bound cfg responses max_steps 0 _

/-! ## Claim C3 -/

/-- Gate discipline is preserved by concatenation of well-formed trace
chunks. -/
theorem gateOK_append : ∀ (a b : List Event),
    gateOK a = true → gateOK b = true → gateOK (a ++ b) = true := by
  intro a
  induction a using gateOK.induct with
  | case1 =>
    intro b _ hb
    simpa
  | case2 r r2 ih =>
    intro b ha hb
    simp only [gateOK] at ha
    simp only [List.cons_append, gateOK]
    exact ih b ha hb
  | case3 r rest hx =>
    intro b ha hb
    simp only [gateOK] at ha
    cases ha
  | case4 r2 ih =>
    intro b ha hb
    simp only [gateOK] at ha
    simp only [List.cons_append, gateOK]
    exact ih b ha hb
  | case5 rest hx =>
    intro b ha hb
    simp only [gateOK] at ha
    cases ha
  | case6 e rest hne1 hne2 ih =>
    intro b ha hb
    cases e with
    | observePause s => exact absurd rfl (hne1 s)
    | gateWait => exact absurd rfl hne2
    | screenshot =>
      simp only [gateOK] at ha
      simp only [List.cons_append, gateOK]
      exact ih b ha hb
    | modelCall =>
      simp only [gateOK] at ha
      simp only [List.cons_append, gateOK]
      exact ih b ha hb
    | execBatch l =>
      simp only [gateOK] at ha
      simp only [List.cons_append, gateOK]
      exact ih b ha hb
    | observeComplete m =>
      simp only [gateOK] at ha
      simp only [List.cons_append, gateOK]
      exact ih b ha hb
    | observeIntervention k =>
      simp only [gateOK] at ha
      simp only [List.cons_append, gateOK]
      exact ih b ha hb
    | gateClear =>
      simp only [gateOK] at ha
      simp only [List.cons_append, gateOK]
      exact ih b ha hb

/-- With the gate installed, the batch scan is gate-disciplined: each
pause observation immediately blocks on `wait()` and `clear()`s. -/
theorem scanBatch_gateOK :
    ∀ (calls : List ToolCall) (st : AgentState),
      gateOK (scanBatch true st calls).evs = true := by
  intro calls
  induction calls with
  | nil => intro st; rfl
  | cons c rest ih =>
    intro st
    by_cases hp : c.name = "pause_task"
    · simp only [scanBatch, if_pos hp]
      simp only [gateEvs, if_pos rfl, List.cons_append, List.nil_append, gateOK]
      exact ih _
    · by_cases hc : c.name = "complete_task"
      · simp only [scanBatch, if_neg hp, if_pos hc]
        rfl
      · simp only [scanBatch, if_neg hp, if_neg hc]
        exact ih st

/-- The fixed head of an iteration (screenshot, optional resume gate,
model call) is gate-disciplined. -/
theorem headEvs_gateOK (mi : Bool) :
    gateOK (Event.screenshot ::
      (if mi = true then gateEvs true ++ [Event.screenshot] else []) ++
      [Event.modelCall]) = true := by
  cases mi <;> rfl

/-- With an installed pause event, every trace of the loop is
gate-disciplined. -/
theorem run_taskAux_gateOK (cfg : LoopCfg) (responses : List String)
    (hPE : cfg.hasPauseEvent = true) :
    ∀ (fuel idx : Nat) (st : AgentState),
      gateOK (run_taskAux cfg responses fuel idx st).trace = true := by
  intro fuel
  induction fuel with
  | zero =>
    intro idx st
    rfl
  | succ fuel ih =>
    intro idx st
    rw [run_taskAux]
    cases hmi : st.manual_intervention_detected with
    | true =>
      simp only [pushMsg_flag, hmi, hPE, stepExec, reduceIte]
      split
      · split
        · simp only [gateEvs, reduceIte, List.cons_append, List.nil_append,
            List.append_assoc, gateOK]
          exact ih (idx + 1) _
        · split
          · simp only [gateEvs, reduceIte, List.cons_append, List.nil_append,
              List.append_assoc, gateOK]
            exact ih (idx + 1) _
          · simp only [gateEvs, reduceIte, List.cons_append, List.nil_append,
              List.append_assoc, gateOK]
      · split
        · simp only [gateEvs, reduceIte, List.cons_append, List.nil_append,
            List.append_assoc, gateOK]
          exact scanBatch_gateOK _ _
        · simp only [gateEvs, reduceIte, List.cons_append, List.nil_append,
            List.append_assoc, gateOK]
          exact gateOK_append _ _ (scanBatch_gateOK _ _) (ih (idx + 1) _)
    | false =>
      simp only [pushMsg_flag, hmi, hPE, stepExec, reduceIte]
      split
      · split
        · simp only [gateEvs, reduceIte, List.cons_append, List.nil_append,
            List.append_assoc, gateOK]
          exact ih (idx + 1) _
        · split
          · simp only [gateEvs, reduceIte, List.cons_append, List.nil_append,
              List.append_assoc, gateOK]
            exact ih (idx + 1) _
          · simp only [gateEvs, reduceIte, List.cons_append, List.nil_append,
              List.append_assoc, gateOK]
      · split
        · simp only [gateEvs, reduceIte, List.cons_append, List.nil_append,
            List.append_assoc, gateOK]
          exact scanBatch_gateOK _ _
        · simp only [gateEvs, reduceIte, List.cons_append, List.nil_append,
            List.append_assoc, gateOK]
          exact gateOK_append _ _ (scanBatch_gateOK _ _) (ih (idx + 1) _)

/-- C3: when an external pause event is installed, after every
`pause_task` observation the controller immediately blocks on the gate
— the very next events are `wait()` then `clear()` — so no further
model call is issued until the release signal fires, and every wait is
followed by its clear (the signal is consumed on resume, leaving no
residual state, so pause/resume can recur arbitrarily within one
task). -/
theorem c3_pause_gate_discipline (cfg : LoopCfg) (sysPrompt : String)
    (responses : List String) (max_steps : Nat)
    (hPE : cfg.hasPauseEvent = true) :
    gateOK (run_task cfg sysPrompt responses max_steps).trace = true :=
  run_taskAux_gateOK cfg responses hPE max_steps 0 _

/-- Handler environment for the loop witnesses: every handler returns
its own name. -/
def rtProbe : ToolEnv := fun n _ => Except.ok n

/-- C3, witness: a run that pauses once and resumes is
gate-disciplined. -/
theorem c3_witness :
    gateOK (run_task ⟨rtProbe, true⟩ "" ["pause_task(reason=\"x\")<|tool_call|>", ""] 3).trace
      = true :=
  c3_pause_gate_discipline ⟨rtProbe, true⟩ "" ["pause_task(reason=\"x\")<|tool_call|>", ""] 3 rfl

/-! ## Claim C10 -/

/-- Pause observations immediately followed by a screenshot are
preserved by concatenation. -/
theorem pauseThenShot_append : ∀ (a b : List Event),
    pauseThenShot a = true → pauseThenShot b = true → pauseThenShot (a ++ b) = true := by
  intro a
  induction a using pauseThenShot.induct with
  | case1 =>
    intro b _ hb
    simpa
  | case2 r r2 ih =>
    intro b ha hb
    simp only [pauseThenShot] at ha
    simp only [List.cons_append, pauseThenShot]
    exact ih b ha hb
  | case3 r rest hx =>
    intro b ha hb
    simp only [pauseThenShot] at ha
    cases ha
  | case4 e rest hne ih =>
    intro b ha hb
    cases e with
    | observePause s => exact absurd rfl (hne s)
    | screenshot =>
      simp only [pauseThenShot] at ha
      simp only [List.cons_append, pauseThenShot]
      exact ih b ha hb
    | modelCall =>
      simp only [pauseThenShot] at ha
      simp only [List.cons_append, pauseThenShot]
      exact ih b ha hb
    | execBatch l =>
      simp only [pauseThenShot] at ha
      simp only [List.cons_append, pauseThenShot]
      exact ih b ha hb
    | observeComplete m =>
      simp only [pauseThenShot] at ha
      simp only [List.cons_append, pauseThenShot]
      exact ih b ha hb
    | observeIntervention k =>
      simp only [pauseThenShot] at ha
      simp only [List.cons_append, pauseThenShot]
      exact ih b ha hb
    | gateWait =>
      simp only [pauseThenShot] at ha
      simp only [List.cons_append, pauseThenShot]
      exact ih b ha hb
    | gateClear =>
      simp only [pauseThenShot] at ha
      simp only [List.cons_append, pauseThenShot]
      exact ih b ha hb

/-- Absence of waits is preserved by concatenation. -/
theorem noGateWait_append : ∀ (a b : List Event),
    noGateWait a = true → noGateWait b = true → noGateWait (a ++ b) = true := by
  intro a
  induction a using noGateWait.induct with
  | case1 =>
    intro b _ hb
    simpa
  | case2 rest =>
    intro b ha hb
    simp only [noGateWait] at ha
    cases ha
  | case3 e rest hne ih =>
    intro b ha hb
    cases e with
    | gateWait => exact absurd rfl hne
    | screenshot =>
      simp only [noGateWait] at ha
      simp only [List.cons_append, noGateWait]
      exact ih b ha hb
    | modelCall =>
      simp only [noGateWait] at ha
      simp only [List.cons_append, noGateWait]
      exact ih b ha hb
    | execBatch l =>
      simp only [noGateWait] at ha
      simp only [List.cons_append, noGateWait]
      exact ih b ha hb
    | observePause s =>
      simp only [noGateWait] at ha
      simp only [List.cons_append, noGateWait]
      exact ih b ha hb
    | observeComplete m =>
      simp only [noGateWait] at ha
      simp only [List.cons_append, noGateWait]
      exact ih b ha hb
    | observeIntervention k =>
      simp only [noGateWait] at ha
      simp only [List.cons_append, noGateWait]
      exact ih b ha hb
    | gateClear =>
      simp only [noGateWait] at ha
      simp only [List.cons_append, noGateWait]
      exact ih b ha hb

/-- Without a pause event, the batch scan emits no wait. -/
theorem scanBatch_noWait :
    ∀ (calls : List ToolCall) (st : AgentState),
      noGateWait (scanBatch false st calls).evs = true := by
  intro calls
  induction calls with
  | nil => intro st; rfl
  | cons c rest ih =>
    intro st
    by_cases hp : c.name = "pause_task"
    · simp only [scanBatch, if_pos hp, gateEvs, Bool.false_eq_true, reduceIte,
        List.nil_append, noGateWait]
      exact ih _
    · by_cases hc : c.name = "complete_task"
      · simp only [scanBatch, if_neg hp, if_pos hc]
        rfl
      · simp only [scanBatch, if_neg hp, if_neg hc]
        exact ih st

/-- Without a pause event, every pause observation of the batch scan
flows straight into the recapture screenshot. -/
theorem scanBatch_pauseShot :
    ∀ (calls : List ToolCall) (st : AgentState),
      pauseThenShot (scanBatch false st calls).evs = true := by
  intro calls
  induction calls with
  | nil => intro st; rfl
  | cons c rest ih =>
    intro st
    by_cases hp : c.name = "pause_task"
    · simp only [scanBatch, if_pos hp, gateEvs, Bool.false_eq_true, reduceIte,
        List.nil_append, pauseThenShot]
      exact ih _
    · by_cases hc : c.name = "complete_task"
      · simp only [scanBatch, if_neg hp, if_pos hc]
        rfl
      · simp only [scanBatch, if_neg hp, if_neg hc]
        exact ih st

/-- Without an installed pause event the loop never waits. -/
theorem run_taskAux_noWait (cfg : LoopCfg) (responses : List String)
    (hPE : cfg.hasPauseEvent = false) :
    ∀ (fuel idx : Nat) (st : AgentState),
      noGateWait (run_taskAux cfg responses fuel idx st).trace = true := by
  intro fuel
  induction fuel with
  | zero =>
    intro idx st
    rfl
  | succ fuel ih =>
    intro idx st
    rw [run_taskAux]
    cases hmi : st.manual_intervention_detected with
    | true =>
      simp only [pushMsg_flag, hmi, hPE, stepExec, reduceIte]
      split
      · split
        · simp only [gateEvs, Bool.false_eq_true, reduceIte, List.cons_append,
            List.nil_append, List.append_assoc, noGateWait]
          exact ih (idx + 1) _
        · split
          · simp only [gateEvs, Bool.false_eq_true, reduceIte, List.cons_append,
              List.nil_append, List.append_assoc, noGateWait]
            exact ih (idx + 1) _
          · simp only [gateEvs, Bool.false_eq_true, reduceIte, List.cons_append,
              List.nil_append, List.append_assoc, noGateWait]
      · split
        · simp only [gateEvs, Bool.false_eq_true, reduceIte, List.cons_append,
            List.nil_append, List.append_assoc, noGateWait]
          exact scanBatch_noWait _ _
        · simp only [gateEvs, Bool.false_eq_true, reduceIte, List.cons_append,
            List.nil_append, List.append_assoc, noGateWait]
          exact noGateWait_append _ _ (scanBatch_noWait _ _) (ih (idx + 1) _)
    | false =>
      simp only [pushMsg_flag, hmi, hPE, stepExec, reduceIte]
      split
      · split
        · simp only [gateEvs, Bool.false_eq_true, reduceIte, List.cons_append,
            List.nil_append, List.append_assoc, noGateWait]
          exact ih (idx + 1) _
        · split
          · simp only [gateEvs, Bool.false_eq_true, reduceIte, List.cons_append,
              List.nil_append, List.append_assoc, noGateWait]
            exact ih (idx + 1) _
          · simp only [gateEvs, Bool.false_eq_true, reduceIte, List.cons_append,
              List.nil_append, List.append_assoc, noGateWait]
      · split
        · simp only [gateEvs, Bool.false_eq_true, reduceIte, List.cons_append,
            List.nil_append, List.append_assoc, noGateWait]
          exact scanBatch_noWait _ _
        · simp only [gateEvs, Bool.false_eq_true, reduceIte, List.cons_append,
            List.nil_append, List.append_assoc, noGateWait]
          exact noGateWait_append _ _ (scanBatch_noWait _ _) (ih (idx + 1) _)

/-- Without an installed pause event, every pause observation is
immediately followed by the next screenshot. -/
theorem run_taskAux_pauseShot (cfg : LoopCfg) (responses : List String)
    (hPE : cfg.hasPauseEvent = false) :
    ∀ (fuel idx : Nat) (st : AgentState),
      pauseThenShot (run_taskAux cfg responses fuel idx st).trace = true := by
  intro fuel
  induction fuel with
  | zero =>
    intro idx st
    rfl
  | succ fuel ih =>
    intro idx st
    rw [run_taskAux]
    cases hmi : st.manual_intervention_detected with
    | true =>
      simp only [pushMsg_flag, hmi, hPE, stepExec, reduceIte]
      split
      · split
        · simp only [gateEvs, Bool.false_eq_true, reduceIte, List.cons_append,
            List.nil_append, List.append_assoc, pauseThenShot]
          exact ih (idx + 1) _
        · split
          · simp only [gateEvs, Bool.false_eq_true, reduceIte, List.cons_append,
              List.nil_append, List.append_assoc, pauseThenShot]
            exact ih (idx + 1) _
          · simp only [gateEvs, Bool.false_eq_true, reduceIte, List.cons_append,
              List.nil_append, List.append_assoc, pauseThenShot]
      · split
        · simp only [gateEvs, Bool.false_eq_true, reduceIte, List.cons_append,
            List.nil_append, List.append_assoc, pauseThenShot]
          exact scanBatch_pauseShot _ _
        · simp only [gateEvs, Bool.false_eq_true, reduceIte, List.cons_append,
            List.nil_append, List.append_assoc, pauseThenShot]
          exact pauseThenShot_append _ _ (scanBatch_pauseShot _ _) (ih (idx + 1) _)
    | false =>
      simp only [pushMsg_flag, hmi, hPE, stepExec, reduceIte]
      split
      · split
        · simp only [gateEvs, Bool.false_eq_true, reduceIte, List.cons_append,
            List.nil_append, List.append_assoc, pauseThenShot]
          exact ih (idx + 1) _
        · split
          · simp only [gateEvs, Bool.false_eq_true, reduceIte, List.cons_append,
              List.nil_append, List.append_assoc, pauseThenShot]
            exact ih (idx + 1) _
          · simp only [gateEvs, Bool.false_eq_true, reduceIte, List.cons_append,
              List.nil_append, List.append_assoc, pauseThenShot]
      · split
        · simp only [gateEvs, Bool.false_eq_true, reduceIte, List.cons_append,
            List.nil_append, List.append_assoc, pauseThenShot]
          exact scanBatch_pauseShot _ _
        · simp only [gateEvs, Bool.false_eq_true, reduceIte, List.cons_append,
            List.nil_append, List.append_assoc, pauseThenShot]
          exact pauseThenShot_append _ _ (scanBatch_pauseShot _ _) (ih (idx + 1) _)


/-- C10: if no external pause event object is installed
(`pause_event is None`), observing a `pause_task` call or a detected
intervention never suspends the loop: the trace contains no `wait()`
at all, and every pause observation flows directly into the next
screenshot (and thence the next model call). -/
theorem c10_no_gate_without_event (cfg : LoopCfg) (sysPrompt : String)
    (responses : List String) (max_steps : Nat)
    (hPE : cfg.hasPauseEvent = false) :
    noGateWait (run_task cfg sysPrompt responses max_steps).trace = true ∧
    pauseThenShot (run_task cfg sysPrompt responses max_steps).trace = true :=
  ⟨run_taskAux_noWait cfg responses hPE max_steps 0 _,
   run_taskAux_pauseShot cfg responses hPE max_steps 0 _⟩

/-- C10, witness: a run that observes both a `pause_task` call and a
keyword-detected intervention, with no pause event installed, never
waits. -/
theorem c10_witness :
    noGateWait (run_task ⟨rtProbe, false⟩ ""
      ["pause_task(reason=\"x\")<|tool_call|>", "请输入验证码", ""] 5).trace = true ∧
    pauseThenShot (run_task ⟨rtProbe, false⟩ ""
      ["pause_task(reason=\"x\")<|tool_call|>", "请输入验证码", ""] 5).trace = true :=
  c10_no_gate_without_event ⟨rtProbe, false⟩ ""
    ["pause_task(reason=\"x\")<|tool_call|>", "请输入验证码", ""] 5 rfl

/-! ## Claim C1 -/

/-- C1, counterexample.  The claim asserts that calls listed after a
`complete_task` in the same batch are never executed.  In the code,
line 564 runs `execute_tool_calls` over the *whole* batch before the
controller scans it for `complete_task` at line 569.  On the response
`complete_task(message="done")<|tool_call|>wait(seconds=1)<|tool_call|>`
the run does return success with the message, but the trace's
execution event carries a result line for the trailing `wait` call —
its handler was invoked, refuting "ignored (never executed)". -/
theorem c1_counterexample :
    (run_task ⟨rtProbe, false⟩ ""
        ["complete_task(message=\"done\")<|tool_call|>wait(seconds=1)<|tool_call|>"]
        50).answer = "任务已完成: done" ∧
    Event.execBatch
        ["工具 complete_task 执行结果: complete_task", "工具 wait 执行结果: wait"] ∈
      (run_task ⟨rtProbe, false⟩ ""
        ["complete_task(message=\"done\")<|tool_call|>wait(seconds=1)<|tool_call|>"]
        50).trace := by
  refine ⟨by decide, by decide⟩

/-- The post-execution scan returns at the first `complete_task`, with
that call's message (earlier `pause_task` calls only add gate passages
and messages; they do not change the outcome). -/
theorem scanBatch_first_complete (hasPE : Bool) :
    ∀ (calls : List ToolCall) (st : AgentState) (c : ToolCall),
      calls.find? (fun k => k.name == "complete_task") = some c →
      (scanBatch hasPE st calls).out =
        ScanOut.ret ("任务已完成: " ++
          renderArg (argGetD c.arguments "message" (ArgValue.str "任务已完成"))) := by
  intro calls
  induction calls with
  | nil =>
    intro st c h
    simp [List.find?] at h
  | cons k rest ih =>
    intro st c h
    by_cases hc : k.name = "complete_task"
    · rw [List.find?_cons_of_pos _ (by simp [hc])] at h
      cases h
      have hp : k.name ≠ "pause_task" := by simp [hc]
      simp only [scanBatch, if_neg hp, if_pos hc]
    · rw [List.find?_cons_of_neg _ (by simp [hc])] at h
      by_cases hp : k.name = "pause_task"
      · simp only [scanBatch, if_pos hp]
        exact ih _ c h
      · simp only [scanBatch, if_neg hp, if_neg hc]
        exact ih st c h

/-- C1, amended: when a batch contains a `complete_task`, the step
returns success immediately with the *first* `complete_task`'s message
(default `"任务已完成"`), skipping the controller's special handling of
any later calls — but the batch itself has already been executed in
full by `execute_tool_calls` (including the calls after the
`complete_task`) before the scan runs: the step's first event is the
execution of the entire batch. -/
theorem c1_amended_first_complete_returns (cfg : ToolEnv) (hasPE : Bool)
    (st : AgentState) (calls : List ToolCall) (c : ToolCall)
    (hfind : calls.find? (fun k => k.name == "complete_task") = some c) :
    (stepExec cfg hasPE st calls).out =
      ScanOut.ret ("任务已完成: " ++
        renderArg (argGetD c.arguments "message" (ArgValue.str "任务已完成"))) ∧
    (stepExec cfg hasPE st calls).evs.head? =
      some (Event.execBatch (executeResults cfg calls)) :=
  ⟨scanBatch_first_complete hasPE calls st c hfind, rfl⟩

/-- C1, witness for the amended claim: a batch `pause_task;
complete_task(message="done"); wait` returns success with `done` while
its execution event covers all three calls. -/
theorem c1_amended_witness :
    (stepExec rtProbe true ⟨[], false, ""⟩
        [⟨"pause_task", []⟩, ⟨"complete_task", [("message", ArgValue.str "done")]⟩,
         ⟨"wait", [("seconds", ArgValue.int 1)]⟩]).out = ScanOut.ret "任务已完成: done" ∧
    (stepExec rtProbe true ⟨[], false, ""⟩
        [⟨"pause_task", []⟩, ⟨"complete_task", [("message", ArgValue.str "done")]⟩,
         ⟨"wait", [("seconds", ArgValue.int 1)]⟩]).evs.head? =
      some (Event.execBatch
        ["工具 pause_task 执行结果: pause_task", "工具 complete_task 执行结果: complete_task",
         "工具 wait 执行结果: wait"]) := by
  have h := c1_amended_first_complete_returns rtProbe true ⟨[], false, ""⟩
    [⟨"pause_task", []⟩, ⟨"complete_task", [("message", ArgValue.str "done")]⟩,
     ⟨"wait", [("seconds", ArgValue.int 1)]⟩]
    ⟨"complete_task", [("message", ArgValue.str "done")]⟩ (by decide)
  refine ⟨h.1.trans (by decide), h.2.trans (by decide)⟩

/-! ## Claim C6 -/

/-- A successful literal strip means the literal is a prefix. -/
theorem stripPrefixList_some_isPrefix :
    ∀ (p t r : List Char), stripPrefixList p t = some r → p.isPrefixOf t = true := by
  intro p
  induction p with
  | nil =>
    intro t r _
    cases t <;> rfl
  | cons a ps ih =>
    intro t r h
    cases t with
    | nil => simp [stripPrefixList] at h
    | cons b ts =>
      simp only [stripPrefixList] at h
      split at h
      · rename_i hab
        simp [List.isPrefixOf, hab, ih ts r h]
      · cases h

/-- Consuming one expected character yields the tail. -/
theorem expectChar_suffix :
    ∀ (ch : Char) (l r : List Char), expectChar ch l = some r → r <:+ l := by
  intro ch l r h
  cases l with
  | nil => simp [expectChar] at h
  | cons x xs =>
    simp only [expectChar] at h
    split at h
    · injection h with h2
      subst h2
      exact List.suffix_cons x xs
    · cases h

/-- If the marker is a prefix of some suffix of the text, the text
contains the marker. -/
theorem containsMarker_of_suffix_prefix :
    ∀ (t s : List Char), s <:+ t → markerL.isPrefixOf s = true →
      containsMarker t = true := by
  intro t
  induction t with
  | nil =>
    intro s hs hp
    rw [List.suffix_nil.mp hs] at hp
    simp [markerL, List.isPrefixOf] at hp
  | cons c ts ih =>
    intro s hs hp
    rcases List.suffix_cons_iff.mp hs with rfl | hsuf
    · simp [containsMarker, hp]
    · simp [containsMarker, ih s hsuf hp]

/-- A pattern-1 match requires the marker at the match position. -/
theorem tryMatch1_some_marker (t : List Char) (x : List Char × List Char)
    (h : tryMatch1 t = some x) : containsMarker t = true := by
  cases t with
  | nil => simp [tryMatch1, markerL, stripPrefixList] at h
  | cons c r =>
    rw [tryMatch1] at h
    cases h0 : stripPrefixList markerL (c :: r) with
    | none => rw [h0] at h; cases h
    | some rest =>
      simp [containsMarker, stripPrefixList_some_isPrefix _ _ _ h0]

/-- A pattern-2 match requires the marker somewhere in the text. -/
theorem tryMatch2_some_marker (t : List Char) (x : List Char × List Char)
    (h : tryMatch2 t = some x) : containsMarker t = true := by
  cases t with
  | nil => simp [tryMatch2] at h
  | cons c r =>
    simp only [tryMatch2] at h
    split at h
    · split at h
      · cases h
      · rename_i r3 h1
        split at h
        · cases h
        · rename_i r5 h2
          split at h
          · cases h
          · rename_i r7 h3
            have hsuf : (r5.dropWhile isPySpace) <:+ (c :: r) := by
              have s1 : r5.dropWhile isPySpace <:+ r5 := List.dropWhile_suffix _
              have s2 := expectChar_suffix _ _ _ h2
              have s3 : r3.dropWhile (fun x => decide (x ≠ ')')) <:+ r3 :=
                List.dropWhile_suffix _
              have s4 := expectChar_suffix _ _ _ h1
              have s5 : (r.dropWhile isIdentChar).dropWhile isPySpace <:+ r.dropWhile isIdentChar :=
                List.dropWhile_suffix _
              have s6 : r.dropWhile isIdentChar <:+ r := List.dropWhile_suffix _
              have s7 : r <:+ c :: r := List.suffix_cons c r
              exact (((((s1.trans s2).trans s3).trans s4).trans s5).trans s6).trans s7
            exact containsMarker_of_suffix_prefix _ _ hsuf
              (stripPrefixList_some_isPrefix _ _ _ h3)
    · cases h

/-- Marker-free texts yield no pattern-1 matches. -/
theorem findall1Aux_nil (fuel : Nat) :
    ∀ (t : List Char), containsMarker t = false → findall1Aux fuel t = [] := by
  induction fuel with
  | zero => intro t _; rfl
  | succ fuel ih =>
    intro t h
    cases t with
    | nil => rfl
    | cons c r =>
      rw [findall1Aux]
      cases htm : tryMatch1 (c :: r) with
      | some x =>
        rw [tryMatch1_some_marker _ x htm] at h
        cases h
      | none =>
        apply ih
        simp only [containsMarker, Bool.or_eq_false_iff] at h
        exact h.2

/-- Marker-free texts yield no pattern-2 matches. -/
theorem findall2Aux_nil (fuel : Nat) :
    ∀ (t : List Char), containsMarker t = false → findall2Aux fuel t = [] := by
  induction fuel with
  | zero => intro t _; rfl
  | succ fuel ih =>
    intro t h
    cases t with
    | nil => rfl
    | cons c r =>
      rw [findall2Aux]
      cases htm : tryMatch2 (c :: r) with
      | some x =>
        rw [tryMatch2_some_marker _ x htm] at h
        cases h
      | none =>
        apply ih
        simp only [containsMarker, Bool.or_eq_false_iff] at h
        exact h.2

/-- The name returned by the alternation is one of the alternatives. -/
theorem findName3_mem :
    ∀ (l : List (List Char)) (t nm r : List Char),
      findName3 l t = some (nm, r) → nm ∈ l := by
  intro l
  induction l with
  | nil => intro t nm r h; simp [findName3] at h
  | cons p ps ih =>
    intro t nm r h
    simp only [findName3] at h
    cases h0 : stripPrefixList p t with
    | some rest =>
      rw [h0] at h
      cases h
      exact List.mem_cons_self _ _
    | none =>
      rw [h0] at h
      exact List.mem_cons_of_mem _ (ih t nm r h)

/-- A pattern-3 capture is an allow-listed name, optional whitespace,
and a parenthesised argument text. -/
theorem tryMatch3_shape (t cap after : List Char)
    (h : tryMatch3 t = some (cap, after)) :
    ∃ nm ws args, nm ∈ names3 ∧ (∀ w ∈ ws, isPySpace w = true) ∧
      cap = nm ++ ws ++ '(' :: (args ++ [')']) := by
  simp only [tryMatch3] at h
  split at h
  · cases h
  · rename_i p h0
    split at h
    · cases h
    · rename_i r3 h1
      split at h
      · cases h
      · rename_i r5 h2
        split at h
        · cases h
          refine ⟨p.1, p.2.takeWhile isPySpace, r3.takeWhile (fun x => decide (x ≠ ')')),
            ?_, fun w hw => List.mem_takeWhile_imp hw, rfl⟩
          obtain ⟨nm, r1⟩ := p
          exact findName3_mem _ _ _ _ h0
        · cases h

/-- Every pattern-3 capture has the allow-listed shape. -/
theorem findall3Aux_shape (fuel : Nat) :
    ∀ (t s : List Char), s ∈ findall3Aux fuel t →
      ∃ nm ws args, nm ∈ names3 ∧ (∀ w ∈ ws, isPySpace w = true) ∧
        s = nm ++ ws ++ '(' :: (args ++ [')']) := by
  induction fuel with
  | zero => intro t s h; cases h
  | succ fuel ih =>
    intro t s h
    cases t with
    | nil => cases h
    | cons c r =>
      rw [findall3Aux] at h
      cases htm : tryMatch3 (c :: r) with
      | some x =>
        obtain ⟨cap, after⟩ := x
        rw [htm] at h
        rcases List.mem_cons.1 h with rfl | hrec
        · exact tryMatch3_shape _ _ _ htm
        · exact ih after s hrec
      | none =>
        rw [htm] at h
        exact ih r s h

/-- Whitespace is never an identifier character. -/
theorem space_not_ident (c : Char) (h : isPySpace c = true) : isIdentChar c = false := by
  simp only [isPySpace, Bool.or_eq_true, decide_eq_true_eq] at h
  rcases h with ((((rfl | rfl) | rfl) | rfl) | rfl) | rfl <;> rfl

/-- `takeWhile` passes over a block that satisfies the predicate. -/
theorem takeWhile_append_all (p : Char → Bool) :
    ∀ (l1 l2 : List Char), (∀ x ∈ l1, p x = true) →
      (l1 ++ l2).takeWhile p = l1 ++ l2.takeWhile p := by
  intro l1
  induction l1 with
  | nil => intro l2 _; rfl
  | cons a l ih =>
    intro l2 hall
    have ha : p a = true := hall a (List.mem_cons_self _ _)
    simp only [List.cons_append, List.takeWhile_cons, ha, reduceIte]
    rw [ih l2 (fun x hx => hall x (List.mem_cons_of_mem _ hx))]

/-- On a span of the pattern-3 shape, the function pattern's captured
name is exactly the allow-listed name. -/
theorem funcMatch_name_of_shape (nm ws args : List Char)
    (res : List Char × List Char)
    (hmem : nm ∈ names3) (hws : ∀ w ∈ ws, isPySpace w = true)
    (h : funcMatch (nm ++ ws ++ '(' :: (args ++ [')'])) = some res) :
    res.1 = nm := by
  have hfacts : nm ≠ [] ∧ (∀ ch ∈ nm, isIdentChar ch = true) := by
    simp only [names3, List.mem_cons, List.not_mem_nil, or_false] at hmem
    rcases hmem with rfl | rfl | rfl | rfl | rfl | rfl | rfl | rfl | rfl <;>
      exact ⟨by decide, by decide⟩
  obtain ⟨hne, hident⟩ := hfacts
  cases hnm : nm with
  | nil => exact absurd hnm hne
  | cons n0 ntl =>
    subst hnm
    have hn0 : isIdentChar n0 = true := hident n0 (List.mem_cons_self _ _)
    have hn0start : isIdentStart n0 = true := by
      simp only [isIdentChar, Bool.or_eq_true] at hn0
      rcases hn0 with h' | h'
      · exact h'
      · simp only [names3, List.mem_cons, List.not_mem_nil, or_false] at hmem
        rcases hmem with h9 | h9 | h9 | h9 | h9 | h9 | h9 | h9 | h9 <;>
          (injection h9 with h0 _; rw [h0]; rfl)
    have hn0space : isPySpace n0 = false := by
      cases hsp : isPySpace n0
      · rfl
      · rw [space_not_ident n0 hsp] at hn0
        cases hn0
    have htake : ((n0 :: ntl) ++ ws ++ '(' :: (args ++ [')'])).takeWhile isIdentChar
        = n0 :: ntl := by
      rw [List.append_assoc, takeWhile_append_all _ _ _ hident]
      have hrest : (ws ++ '(' :: (args ++ [')'])).takeWhile isIdentChar = [] := by
        cases ws with
        | nil => rfl
        | cons w ws2 =>
          have hw : isPySpace w = true := hws w (List.mem_cons_self _ _)
          simp [List.takeWhile_cons, space_not_ident w hw]
      rw [hrest, List.append_nil]
    have hdrop : ((n0 :: ntl) ++ ws ++ '(' :: (args ++ [')'])).dropWhile isPySpace
        = (n0 :: ntl) ++ ws ++ '(' :: (args ++ [')']) := by
      simp [List.cons_append, List.dropWhile_cons, hn0space]
    rw [funcMatch, hdrop] at h
    simp only [List.cons_append] at h htake
    rw [if_pos hn0start, htake] at h
    split at h
    · cases h
    · rename_i t3 h3
      rw [Option.map_eq_some'] at h
      obtain ⟨la, hla, hres⟩ := h
      rw [← hres]
/-- C6: in a response that carries no `<|tool_call|>` marker anywhere,
every extracted call's name is in the fixed allow-list — a bare-form
call for a name outside the list is never extracted, even at
end-of-line, end-of-string, or before a sentence terminator (the only
other match routes, patterns 1 and 2, both require a marker). -/
theorem c6_bare_names_allowlisted (text : String)
    (hfree : containsMarker text.data = false) :
    ∀ c ∈ parse_tool_calls text, c.name ∈ names3.map String.mk := by
  intro c hc
  unfold parse_tool_calls at hc
  obtain ⟨s, hs, hps⟩ := List.mem_filterMap.mp hc
  have h1 : findall1 text.data = [] := findall1Aux_nil _ _ hfree
  have h2 : findall2 text.data = [] := findall2Aux_nil _ _ hfree
  rw [mergedMatches, h1, h2, List.nil_append, List.nil_append] at hs
  have hs3 : s ∈ findall3 text.data := ((mem_dedupGo _ _).1 hs).1
  obtain ⟨nm, ws, args, hmem, hws, rfl⟩ := findall3Aux_shape _ _ _ hs3
  unfold parseOneCall at hps
  cases hfm : funcMatch (nm ++ ws ++ '(' :: (args ++ [')'])) with
  | none => rw [hfm] at hps; cases hps
  | some p =>
    rw [hfm] at hps
    have hname : p.1 = nm := funcMatch_name_of_shape nm ws args p hmem hws hfm
    cases hps
    exact List.mem_map.2 ⟨nm, hmem, by rw [hname]⟩

/-- C6, witness: the marker-free response `wait(seconds=1)` parses to
a single call whose name the theorem places in the allow-list. -/
theorem c6_witness : ("wait" : String) ∈ names3.map String.mk :=
  c6_bare_names_allowlisted "wait(seconds=1)" (by decide)
    ⟨"wait", [("seconds", ArgValue.int 1)]⟩ (by decide)

end PcAuto
